import Mathlib

/-!
Verification development for the Redis command console view
(`sqladmin/rediscli.py`).  The Python class `RedisCLIView` is shallowly
embedded: the command dispatch table is an insertion-ordered association
list mirroring a Python dict, the store connection is a record of its
reflectively visible members plus an invocation function, exceptions are
an explicit error type, and the request handler is a total function from
the submitted form field to a rendered response, instrumented with an
event trace that records hook and store invocations.
-/

deriving instance DecidableEq for Except

namespace RedisCLI

/-- Identity of an invocable stored in the command table: either a member
of the store connection, identified by the member name `getattr` was
called with, or the built-in help handler `_cmd_help`. -/
inductive Handler where
  | store (name : String)
  | builtinHelp
  deriving Repr, DecidableEq

/-- Runtime result values of a command, mirroring the union
`tuple, list, bool, str, bytes, TextWrapper, dict` in the source.  The
console passes results through untouched, so element payloads are kept
abstract as strings. -/
inductive Value where
  | pytuple (xs : List String)
  | pylist (xs : List String)
  | pybool (b : Bool)
  | pystr (s : String)
  | pybytes (bs : List Nat)
  | pydict (kvs : List (String × String))
  | textWrapper (s : String)
  deriving Repr, DecidableEq

/-- Python `type(d).__name__` of a result value, as used in the response
template context. -/
def Value.typeName : Value → String
  | .pytuple _ => "tuple"
  | .pylist _ => "list"
  | .pybool _ => "bool"
  | .pystr _ => "str"
  | .pybytes _ => "bytes"
  | .pydict _ => "dict"
  | .textWrapper _ => "TextWrapper"

/-- Exceptions that can cross the request-handler boundary: `KeyError`
(raised for an unknown command), `ValueError` (raised by the shlex
tokenizer), and an arbitrary exception raised by a store operation. -/
inductive Exc where
  | keyError (msg : String)
  | valueError (msg : String)
  | opError (msg : String)
  deriving Repr, DecidableEq

/-- A single-quote character, written via its code point. -/
def squoteChar : Char := Char.ofNat 39

/-- Python `str(e)` for an exception `e`.  For `KeyError` Python renders
the `repr` of the key, so the message gains surrounding single quotes;
for the other cases it is the message itself. -/
def Exc.pyStr : Exc → String
  | .keyError m => String.mk (squoteChar :: m.data) ++ String.mk [squoteChar]
  | .valueError m => m
  | .opError m => m

/-- One entry of `dir(self.redis)` as observed through `getattr`:
the member name, whether the attribute is callable, and its
documentation string (`none` for a missing or `None` docstring). -/
structure Member where
  name : String
  callable : Bool
  doc : Option String
  deriving Repr, DecidableEq

/-- The store connection capability: the list of members reflective
enumeration sees, and the behavior of invoking a callable member with
positional string arguments. -/
structure StoreConn where
  members : List Member
  call : String → List String → Except Exc Value

/-- Overridable extension points of the view: `before_execution`,
`can_use_command` and `after_execution`.  Each may itself raise. -/
structure Hooks where
  beforeExec : String → List String → Except Exc Unit
  canUse : String → List String → Except Exc Bool
  afterExec : String → List String → Value → Except Exc Unit

/-- The default hooks of the source: `before_execution` and
`after_execution` do nothing, `can_use_command` always returns `True`. -/
def defaultHooks : Hooks :=
  ⟨fun _ _ => .ok (), fun _ _ => .ok true, fun _ _ _ => .ok ()⟩

/-- Observable events of one request: hook invocations (recorded with
the exact name and argument tuple passed to the hook) and store
operation invocations. -/
inductive Event where
  | beforeHook (name : String) (args : List String)
  | canUseHook (name : String) (args : List String)
  | storeCall (op : String) (args : List String)
  | afterHook (name : String) (args : List String)
  deriving Repr, DecidableEq

/-- Rendered responses of the view: the error template with its message,
or the response template with the result and its type name. -/
inductive Response where
  | errorFragment (msg : String)
  | resultFragment (result : Value) (typeName : String)
  deriving Repr, DecidableEq

/-- A command table entry: the invocable and its captured help text. -/
abbrev Entry := Handler × String

/-- The command table `self.commands`, modelled as an insertion-ordered
association list with unique keys, matching a Python dict. -/
abbrev CommandTable := List (String × Entry)

/-- Lookup in a Python dict: the value at the first matching key. -/
def dictGet? {α : Type} : List (String × α) → String → Option α
  | [], _ => none
  | p :: ps, k => if p.1 = k then some p.2 else dictGet? ps k

/-- Assignment `d[k] = v` in a Python dict: overwrite the value at an
existing key in place, or append a new binding at the end. -/
def dictInsert {α : Type} : List (String × α) → String → α → List (String × α)
  | [], k, v => [(k, v)]
  | p :: ps, k, v => if p.1 = k then (k, v) :: ps else p :: dictInsert ps k v

/-- The key list of a Python dict, in insertion order. -/
def dictKeys {α : Type} (d : List (String × α)) : List String :=
  d.map Prod.fst

/-- Whitespace as stripped by Python `str.strip`. -/
def pyIsSpace (c : Char) : Bool :=
  c = ' ' || c = '\t' || c = '\n' || c = '\r' || c = Char.ofNat 11 || c = Char.ofNat 12

/-- Python `s.strip()`: drop whitespace at both ends. -/
def pyStrip (s : String) : String :=
  String.mk (((s.data.dropWhile pyIsSpace).reverse.dropWhile pyIsSpace).reverse)

/-- Whether a member name starts with the implementation-private marker,
as tested by `name.startswith("_")`. -/
def startsUnderscore (s : String) : Bool :=
  match s.data with
  | [] => false
  | c :: _ => c = '_'

/-- Captured help text of a member:
`(getattr(attr, "__doc__", "") or "").strip()`. -/
def pyDoc (m : Member) : String :=
  pyStrip (m.doc.getD "")

/-- The class-level remap table `remapped_commands`, mapping the alias
to the canonical command name. -/
def remappedCommands : List (String × String) := [("del", "delete")]

/-- The class-level exclusion set `excluded_commands`. -/
def excludedCommands : List String := ["pubsub", "set_response_callback", "from_url"]

/-- Whether the reflective loop of `_inspect_commands` registers a
member: its name must not start with an underscore, and the skip guard
`not callable(attr) and name in self.excluded_commands` must not fire. -/
def keeps (m : Member) : Bool :=
  !startsUnderscore m.name && (m.callable || !excludedCommands.contains m.name)

/-- The reflective enumeration loop of `_inspect_commands`, folded over
the member list with the table as accumulator. -/
def inspectFold : List Member → CommandTable → CommandTable
  | [], tbl => tbl
  | m :: ms, tbl =>
    if startsUnderscore m.name then inspectFold ms tbl
    else if !m.callable && excludedCommands.contains m.name then inspectFold ms tbl
    else inspectFold ms (dictInsert tbl m.name (Handler.store m.name, pyDoc m))

/-- The reflective enumeration pass of `_inspect_commands`, before the
remap loop. -/
def inspectCommands (conn : StoreConn) : CommandTable :=
  inspectFold conn.members []

/-- The remap loop of `_inspect_commands`:
`self.commands[new] = self.commands[old]` for each pair, raising
`KeyError(old)` when the canonical name is absent at that point. -/
def applyRemaps : List (String × String) → CommandTable → Except Exc CommandTable
  | [], tbl => .ok tbl
  | r :: rs, tbl =>
    match dictGet? tbl r.2 with
    | some e => applyRemaps rs (dictInsert tbl r.1 e)
    | none => .error (.keyError r.2)

/-- The pass `_contribute_commands`: register the synthetic entry
`help`, overwriting any existing binding. -/
def contributeCommands (tbl : CommandTable) : CommandTable :=
  dictInsert tbl "help" (Handler.builtinHelp, "Help!")

/-- Construction of the command table as performed by `__init__`:
reflective enumeration, then the remap loop, then the built-in
contribution.  A `KeyError` escaping the remap loop aborts
construction. -/
def buildCommands (conn : StoreConn) : Except Exc CommandTable :=
  match applyRemaps remappedCommands (inspectCommands conn) with
  | .ok tbl => .ok (contributeCommands tbl)
  | .error e => .error e

/-- The key list of the table as sorted by `sorted(self.commands)`:
lexicographic by code point, the comparison Python uses on `str`. -/
def listCharLe : List Char → List Char → Bool
  | [], _ => true
  | _ :: _, [] => false
  | a :: as, b :: bs => if a = b then listCharLe as bs else decide (a.toNat < b.toNat)

/-- Python string comparison, as a Boolean relation on code-point
sequences. -/
def pyStrLe (a b : String) : Bool :=
  listCharLe a.data b.data

/-- Python string comparison as a proposition, used as the sorting
relation. -/
def pyLe (a b : String) : Prop := pyStrLe a b = true

instance : DecidableRel pyLe := fun a b => inferInstanceAs (Decidable (pyStrLe a b = true))

/-- The key list of the table, sorted as `sorted(self.commands)`
produces it. -/
def sortedKeys (tbl : CommandTable) : List String :=
  List.insertionSort pyLe (dictKeys tbl)

/-- The built-in `_cmd_help` handler.  With no arguments it lists every
command name of the table, sorted and comma-separated, after a fixed
usage line; with an argument it returns that command's help text, a
fixed fallback when the text is empty, or raises `KeyError` when the
command is unknown. -/
def cmdHelp (tbl : CommandTable) (args : List String) : Except Exc Value :=
  match args with
  | [] =>
    .ok (.textWrapper ("Usage: help <command>.\nList of supported commands: " ++
      String.intercalate ", " (sortedKeys tbl)))
  | cmd :: _ =>
    match dictGet? tbl cmd with
    | none => .error (.keyError "Invalid command.")
    | some e =>
      if e.2 = "" then .ok (.textWrapper "Command does not have any help.")
      else .ok (.textWrapper e.2)

/-- The whitespace characters of the shlex lexer. -/
def isShlexWs (c : Char) : Bool :=
  c = ' ' || c = '\t' || c = '\r' || c = '\n'

/-- Lexer state of the POSIX-mode shlex pass: outside quotes, inside
single quotes, inside double quotes, after a backslash outside quotes,
and after a backslash inside double quotes. -/
inductive Mode where
  | normal
  | inSingle
  | inDouble
  | escaped
  | escapedInDouble

/-- One pass of `shlex.split` in POSIX mode with whitespace splitting
and no comment characters: whitespace separates tokens, single quotes
quote literally, double quotes allow backslash escapes of the backslash
and the double quote, and a backslash outside quotes escapes any
character.  An open quote or a trailing backslash at end of input raises
`ValueError`, with the messages the Python lexer uses. -/
def shlexRun : Mode → Bool → List Char → List String → List Char → Except Exc (List String)
  | .normal, started, cur, acc, [] =>
    .ok (acc ++ if started then [String.mk cur.reverse] else [])
  | .inSingle, _, _, _, [] => .error (.valueError "No closing quotation")
  | .inDouble, _, _, _, [] => .error (.valueError "No closing quotation")
  | .escaped, _, _, _, [] => .error (.valueError "No escaped character")
  | .escapedInDouble, _, _, _, [] => .error (.valueError "No escaped character")
  | .normal, started, cur, acc, c :: rest =>
    if isShlexWs c then
      if started then shlexRun .normal false [] (acc ++ [String.mk cur.reverse]) rest
      else shlexRun .normal false [] acc rest
    else if c = squoteChar then shlexRun .inSingle true cur acc rest
    else if c = '"' then shlexRun .inDouble true cur acc rest
    else if c = '\\' then shlexRun .escaped true cur acc rest
    else shlexRun .normal true (c :: cur) acc rest
  | .inSingle, started, cur, acc, c :: rest =>
    if c = squoteChar then shlexRun .normal started cur acc rest
    else shlexRun .inSingle started (c :: cur) acc rest
  | .inDouble, started, cur, acc, c :: rest =>
    if c = '"' then shlexRun .normal started cur acc rest
    else if c = '\\' then shlexRun .escapedInDouble started cur acc rest
    else shlexRun .inDouble started (c :: cur) acc rest
  | .escaped, started, cur, acc, c :: rest =>
    shlexRun .normal started (c :: cur) acc rest
  | .escapedInDouble, started, cur, acc, c :: rest =>
    if c = '\\' || c = '"' then shlexRun .inDouble started (c :: cur) acc rest
    else shlexRun .inDouble started (c :: '\\' :: cur) acc rest

/-- The tokenizer `_parse_cmd`: `tuple(shlex.split(cmd))`. -/
def parseCmd (s : String) : Except Exc (List String) :=
  shlexRun .normal false [] [] s.data

/-- Alias resolution at the head of `_execute_command`:
`new_cmd = self.remapped_commands.get(name)` followed by the truthiness
test `if new_cmd`, so an empty canonical name is not substituted. -/
def resolveName (remaps : List (String × String)) (name : String) : String :=
  match dictGet? remaps name with
  | some c => if c = "" then name else c
  | none => name

/-- Invocation of a resolved table entry, instrumented with the store
calls it performs.  A store member runs the connection's operation; the
built-in help handler runs `_cmd_help` over the table. -/
def callHandlerT (conn : StoreConn) (tbl : CommandTable) :
    Handler → List String → Except Exc Value × List Event
  | .store n, args => (conn.call n args, [Event.storeCall n args])
  | .builtinHelp, args => (cmdHelp tbl args, [])

/-- The executor `_execute_command`: resolve the alias, look the name up
in the table (raising `KeyError` when absent), and invoke the entry with
the arguments expanded positionally. -/
def executeCommandT (conn : StoreConn) (tbl : CommandTable)
    (remaps : List (String × String)) (name : String) (args : List String) :
    Except Exc Value × List Event :=
  match dictGet? tbl (resolveName remaps name) with
  | none => (.error (.keyError "Invalid command."), [])
  | some e => callHandlerT conn tbl e.1 args

/-- The POST branch of `index_page`, as a total function from the
submitted `cmd` form field to the rendered response, paired with the
trace of hook and store invocations.  Every exception of the tokenizer,
hooks or executor is caught here and rendered as the error fragment
`"CLI: "` followed by Python's rendering of the exception. -/
def indexPostT (conn : StoreConn) (tbl : CommandTable) (hooks : Hooks)
    (cmdField : Option String) : Response × List Event :=
  match cmdField with
  | none => (.errorFragment "CLI: Empty command.", [])
  | some cmd =>
    if cmd = "" then (.errorFragment "CLI: Empty command.", [])
    else
      match parseCmd cmd with
      | .error e => (.errorFragment ("CLI: " ++ Exc.pyStr e), [])
      | .ok [] => (.errorFragment "CLI: Failed to parse command.", [])
      | .ok (name :: args) =>
        match hooks.beforeExec name args with
        | .error e => (.errorFragment ("CLI: " ++ Exc.pyStr e), [Event.beforeHook name args])
        | .ok _ =>
          match hooks.canUse name args with
          | .error e => (.errorFragment ("CLI: " ++ Exc.pyStr e),
              [Event.beforeHook name args, Event.canUseHook name args])
          | .ok false => (.errorFragment "CLI: Command is not allowed.",
              [Event.beforeHook name args, Event.canUseHook name args])
          | .ok true =>
            match executeCommandT conn tbl remappedCommands name args with
            | (.error e, evs) => (.errorFragment ("CLI: " ++ Exc.pyStr e),
                Event.beforeHook name args :: Event.canUseHook name args :: evs)
            | (.ok result, evs) =>
              match hooks.afterExec name args result with
              | .error e => (.errorFragment ("CLI: " ++ Exc.pyStr e),
                  Event.beforeHook name args :: Event.canUseHook name args ::
                    (evs ++ [Event.afterHook name args]))
              | .ok _ => (.resultFragment result (Value.typeName result),
                  Event.beforeHook name args :: Event.canUseHook name args ::
                    (evs ++ [Event.afterHook name args]))

/-- Whether an event is an invocation of a store operation. -/
def isStoreCall : Event → Bool
  | .storeCall _ _ => true
  | _ => false

/-- The number of store operation invocations recorded in a trace. -/
def storeCallCount (evs : List Event) : Nat :=
  evs.countP isStoreCall

/-- A concrete store connection used to evaluate the model: a mix of
callable members, a non-callable attribute, a private member, a callable
member in the exclusion set, a non-callable member in the exclusion set,
and a member named `help`. -/
def demoMembers : List Member :=
  [⟨"append", true, some "Append a value to key."⟩,
   ⟨"delete", true, some "Delete keys."⟩,
   ⟨"get", true, some "Get value."⟩,
   ⟨"help", true, some "Reflected help member."⟩,
   ⟨"pubsub", true, some "Pubsub control."⟩,
   ⟨"set", true, none⟩,
   ⟨"connection_pool", false, none⟩,
   ⟨"_private", true, none⟩,
   ⟨"from_url", false, some "From URL."⟩]

/-- A deterministic store connection whose operations all succeed. -/
def demoConn : StoreConn :=
  ⟨demoMembers, fun _ _ => .ok (.pybool true)⟩

/-- The command table constructed from `demoConn`. -/
def demoTable : CommandTable :=
  match buildCommands demoConn with
  | .ok tbl => tbl
  | .error _ => []

/-- A store connection with the same members as `demoConn` whose
operations all raise an exception with message `boom`. -/
def boomConn : StoreConn :=
  ⟨demoMembers, fun _ _ => .error (.opError "boom")⟩

/-- Hooks whose permission check denies every command. -/
def denyHooks : Hooks :=
  ⟨fun _ _ => .ok (), fun _ _ => .ok false, fun _ _ _ => .ok ()⟩

/-- Looking up the key just inserted returns the inserted value. -/
theorem dictGet?_insert_self {α : Type} (d : List (String × α)) (k : String) (v : α) :
    dictGet? (dictInsert d k v) k = some v := by
  induction d with
  | nil => simp [dictInsert, dictGet?]
  | cons p ps ih =>
    by_cases h : p.1 = k
    · simp [dictInsert, dictGet?, h]
    · simp [dictInsert, dictGet?, h, ih]

/-- Inserting does not change lookups at other keys. -/
theorem dictGet?_insert_ne {α : Type} (d : List (String × α)) (k : String) (v : α)
    (k' : String) (h : k' ≠ k) :
    dictGet? (dictInsert d k v) k' = dictGet? d k' := by
  induction d with
  | nil => simp [dictInsert, dictGet?, Ne.symm h]
  | cons p ps ih =>
    by_cases hp : p.1 = k
    · subst hp
      simp [dictInsert, dictGet?, Ne.symm h]
    · simp only [dictInsert, if_neg hp, dictGet?]
      by_cases hp' : p.1 = k'
      · simp [hp']
      · simp [hp', ih]

/-- Key membership after an insertion. -/
theorem mem_dictKeys_insert {α : Type} (d : List (String × α)) (k : String) (v : α)
    (k' : String) :
    k' ∈ dictKeys (dictInsert d k v) ↔ k' = k ∨ k' ∈ dictKeys d := by
  induction d with
  | nil => simp [dictInsert, dictKeys]
  | cons p ps ih =>
    by_cases h : p.1 = k
    · subst h
      have e1 : dictInsert (p :: ps) p.1 v = (p.1, v) :: ps := by
        simp [dictInsert]
      rw [e1]
      simp only [dictKeys, List.map_cons, List.mem_cons]
      tauto
    · have e1 : dictInsert (p :: ps) k v = p :: dictInsert ps k v := by
        simp [dictInsert, h]
      rw [e1]
      simp only [dictKeys, List.map_cons, List.mem_cons] at ih ⊢
      rw [ih]
      tauto

/-- The Boolean string comparison is total. -/
theorem listCharLe_total (xs ys : List Char) :
    listCharLe xs ys = true ∨ listCharLe ys xs = true := by
  induction xs generalizing ys with
  | nil => exact Or.inl rfl
  | cons a as ih =>
    cases ys with
    | nil => exact Or.inr rfl
    | cons b bs =>
      by_cases hab : a = b
      · subst hab
        rcases ih bs with h | h
        · exact Or.inl (by simp [listCharLe, h])
        · exact Or.inr (by simp [listCharLe, h])
      · have hv : a.toNat ≠ b.toNat := fun hc => hab (Char.ext (UInt32.toNat.inj hc))
        have hba : b ≠ a := fun hc => hab hc.symm
        rcases Nat.lt_or_ge a.toNat b.toNat with h | h
        · exact Or.inl (by simp only [listCharLe, if_neg hab, decide_eq_true_eq]; exact h)
        · have h2 : b.toNat < a.toNat := Nat.lt_of_le_of_ne h (fun hc => hv hc.symm)
          exact Or.inr (by simp only [listCharLe, if_neg hba, decide_eq_true_eq]; exact h2)

/-- The Boolean string comparison is transitive. -/
theorem listCharLe_trans (xs ys zs : List Char)
    (h1 : listCharLe xs ys = true) (h2 : listCharLe ys zs = true) :
    listCharLe xs zs = true := by
  induction xs generalizing ys zs with
  | nil => rfl
  | cons a as ih =>
    cases ys with
    | nil => simp [listCharLe] at h1
    | cons b bs =>
      cases zs with
      | nil => simp [listCharLe] at h2
      | cons c cs =>
        by_cases hab : a = b
        · subst hab
          simp only [listCharLe, if_pos rfl] at h1
          by_cases hac : a = c
          · subst hac
            simp only [listCharLe, if_pos rfl] at h2 ⊢
            exact ih bs cs h1 h2
          · simp only [listCharLe, if_neg hac, decide_eq_true_eq] at h2 ⊢
            exact h2
        · simp only [listCharLe, if_neg hab, decide_eq_true_eq] at h1
          by_cases hbc : b = c
          · rw [← hbc]
            simp only [listCharLe, if_neg hab, decide_eq_true_eq]
            exact h1
          · simp only [listCharLe, if_neg hbc, decide_eq_true_eq] at h2
            have hlt : a.toNat < c.toNat := Nat.lt_trans h1 h2
            have hac : a ≠ c := fun hc => Nat.ne_of_lt hlt (by rw [hc])
            simp only [listCharLe, if_neg hac, decide_eq_true_eq]
            exact hlt

instance : IsTotal String pyLe :=
  ⟨fun a b => listCharLe_total a.data b.data⟩

instance : IsTrans String pyLe :=
  ⟨fun a b c h1 h2 => listCharLe_trans a.data b.data c.data h1 h2⟩

/-- Keys present after the reflective enumeration loop: the keys of the
accumulator plus the names of the members the loop registers. -/
theorem mem_dictKeys_inspectFold (ms : List Member) (tbl : CommandTable) (k : String) :
    k ∈ dictKeys (inspectFold ms tbl) ↔
      (∃ m, m ∈ ms ∧ m.name = k ∧ keeps m = true) ∨ k ∈ dictKeys tbl := by
  induction ms generalizing tbl with
  | nil => simp [inspectFold]
  | cons m ms ih =>
    cases h1 : startsUnderscore m.name with
    | true =>
      have hk : keeps m = false := by simp [keeps, h1]
      have e1 : inspectFold (m :: ms) tbl = inspectFold ms tbl := by
        simp [inspectFold, h1]
      rw [e1, ih]
      constructor
      · rintro (⟨m', hm', rfl, hkeep⟩ | hmem)
        · exact Or.inl ⟨m', List.mem_cons_of_mem _ hm', rfl, hkeep⟩
        · exact Or.inr hmem
      · rintro (⟨m', hm', rfl, hkeep⟩ | hmem)
        · rcases List.mem_cons.mp hm' with rfl | hm'
          · rw [hk] at hkeep
            cases hkeep
          · exact Or.inl ⟨m', hm', rfl, hkeep⟩
        · exact Or.inr hmem
    | false =>
      cases h2 : (!m.callable && excludedCommands.contains m.name) with
      | true =>
        have hk : keeps m = false := by
          cases hcall : m.callable with
          | true =>
            rw [hcall] at h2
            simp at h2
          | false =>
            cases hcon : excludedCommands.contains m.name with
            | true =>
              unfold keeps
              rw [h1, hcall, hcon]
              rfl
            | false =>
              rw [hcall, hcon] at h2
              simp at h2
        have e1 : inspectFold (m :: ms) tbl = inspectFold ms tbl := by
          simp only [inspectFold, h1, Bool.false_eq_true, if_false, h2, if_true]
        rw [e1, ih]
        constructor
        · rintro (⟨m', hm', rfl, hkeep⟩ | hmem)
          · exact Or.inl ⟨m', List.mem_cons_of_mem _ hm', rfl, hkeep⟩
          · exact Or.inr hmem
        · rintro (⟨m', hm', rfl, hkeep⟩ | hmem)
          · rcases List.mem_cons.mp hm' with rfl | hm'
            · rw [hk] at hkeep
              cases hkeep
            · exact Or.inl ⟨m', hm', rfl, hkeep⟩
          · exact Or.inr hmem
      | false =>
        have hk : keeps m = true := by
          cases hcall : m.callable with
          | true =>
            unfold keeps
            rw [h1, hcall]
            rfl
          | false =>
            cases hcon : excludedCommands.contains m.name with
            | true =>
              rw [hcall, hcon] at h2
              simp at h2
            | false =>
              unfold keeps
              rw [h1, hcall, hcon]
              rfl
        have e1 : inspectFold (m :: ms) tbl =
            inspectFold ms (dictInsert tbl m.name (Handler.store m.name, pyDoc m)) := by
          simp only [inspectFold, h1, Bool.false_eq_true, if_false, h2]
        rw [e1, ih, mem_dictKeys_insert]
        constructor
        · rintro (⟨m', hm', rfl, hkeep⟩ | hmem | hmem)
          · exact Or.inl ⟨m', List.mem_cons_of_mem _ hm', rfl, hkeep⟩
          · exact Or.inl ⟨m, List.mem_cons_self m ms, hmem.symm, hk⟩
          · exact Or.inr hmem
        · rintro (⟨m', hm', rfl, hkeep⟩ | hmem)
          · rcases List.mem_cons.mp hm' with rfl | hm'
            · exact Or.inr (Or.inl rfl)
            · exact Or.inl ⟨m', hm', rfl, hkeep⟩
          · exact Or.inr (Or.inr hmem)

/-- Keys present after a successful remap loop: the keys of the input
table plus every alias of the remap list. -/
theorem mem_dictKeys_applyRemaps (rs : List (String × String)) (tbl tbl' : CommandTable)
    (h : applyRemaps rs tbl = .ok tbl') (k : String) :
    k ∈ dictKeys tbl' ↔ k ∈ rs.map Prod.fst ∨ k ∈ dictKeys tbl := by
  induction rs generalizing tbl with
  | nil =>
    cases h
    simp
  | cons r rs ih =>
    simp only [applyRemaps] at h
    cases hg : dictGet? tbl r.2 with
    | none =>
      rw [hg] at h
      cases h
    | some e =>
      rw [hg] at h
      rw [ih _ h, mem_dictKeys_insert]
      simp only [List.map_cons, List.mem_cons]
      tauto

/-- Decomposition of a successful construction: the built table is the
remapped reflective table with the built-in contribution applied. -/
theorem buildCommands_ok (conn : StoreConn) (tbl : CommandTable)
    (h : buildCommands conn = .ok tbl) :
    ∃ t, applyRemaps remappedCommands (inspectCommands conn) = .ok t ∧
      tbl = contributeCommands t := by
  unfold buildCommands at h
  cases hg : applyRemaps remappedCommands (inspectCommands conn) with
  | ok t =>
    rw [hg] at h
    exact ⟨t, rfl, (Except.ok.inj h).symm⟩
  | error e =>
    rw [hg] at h
    cases h

/-- Registration condition of the reflective loop, spelled out. -/
theorem keeps_eq_true_iff (m : Member) :
    keeps m = true ↔ startsUnderscore m.name = false ∧
      (m.callable = true ∨ excludedCommands.contains m.name = false) := by
  unfold keeps
  cases hsu : startsUnderscore m.name <;> cases hc : m.callable <;>
    cases he : excludedCommands.contains m.name <;> simp

/-- C1, counterexample.  The claim asserts that no name of the exclusion
set is ever a key of the constructed table; but on a store connection
whose member `pubsub` is callable — as it is on a real Redis client —
the skip guard `not callable(attr) and name in self.excluded_commands`
never fires, and `pubsub` ends up as a key of the table. -/
theorem c1_exclusion_counterexample :
    excludedCommands.contains "pubsub" = true ∧
    buildCommands demoConn = .ok demoTable ∧
    "pubsub" ∈ dictKeys demoTable :=
  ⟨by decide, by decide, by decide⟩

/-- C1, amended.  After construction the key set of the command table is
exactly: the public member names of the store connection that survive
the loop guard — exclusion removes a discovered member only when it is
not callable — together with the remap alias names and the built-in
name `help`. -/
theorem c1_table_keys_amended (conn : StoreConn) (tbl : CommandTable)
    (h : buildCommands conn = .ok tbl) (k : String) :
    k ∈ dictKeys tbl ↔
      ((∃ m, m ∈ conn.members ∧ m.name = k ∧ startsUnderscore m.name = false ∧
          (m.callable = true ∨ excludedCommands.contains m.name = false))
        ∨ k ∈ remappedCommands.map Prod.fst ∨ k = "help") := by
  obtain ⟨t, ha, rfl⟩ := buildCommands_ok conn tbl h
  unfold contributeCommands
  rw [mem_dictKeys_insert, mem_dictKeys_applyRemaps remappedCommands _ _ ha k]
  unfold inspectCommands
  rw [mem_dictKeys_inspectFold]
  simp only [dictKeys, List.map_nil, List.not_mem_nil, or_false, keeps_eq_true_iff]
  constructor
  · rintro (hh | hal | he)
    · exact Or.inr (Or.inr hh)
    · exact Or.inr (Or.inl hal)
    · exact Or.inl he
  · rintro (he | hal | hh)
    · exact Or.inr (Or.inr he)
    · exact Or.inr (Or.inl hal)
    · exact Or.inl hh

/-- C1, witness for the amended characterization at a concrete store
connection and key. -/
theorem c1_table_keys_amended_witness :
    buildCommands demoConn = .ok demoTable ∧ "get" ∈ dictKeys demoTable :=
  ⟨by decide, (c1_table_keys_amended demoConn demoTable (by decide) "get").mpr
      (Or.inl ⟨⟨"get", true, some "Get value."⟩, by decide, rfl, rfl, Or.inl rfl⟩)⟩

/-- C2.  When the permission hook returns false for the submitted
command, the handler renders the denial error fragment and the trace
contains no store operation invocation at all. -/
theorem c2_denied_never_invokes (conn : StoreConn) (tbl : CommandTable) (hooks : Hooks)
    (cmd name : String) (args : List String)
    (hp : parseCmd cmd = .ok (name :: args))
    (hb : hooks.beforeExec name args = .ok ())
    (hc : hooks.canUse name args = .ok false) :
    (indexPostT conn tbl hooks (some cmd)).1 =
      .errorFragment "CLI: Command is not allowed." ∧
    storeCallCount (indexPostT conn tbl hooks (some cmd)).2 = 0 := by
  have hne : cmd ≠ "" := by
    intro he
    rw [he] at hp
    have h0 : (Except.ok ([] : List String) : Except Exc (List String)) =
        .ok (name :: args) := hp
    injection h0 with h1
    exact List.cons_ne_nil name args h1.symm
  have e1 : indexPostT conn tbl hooks (some cmd) =
      (.errorFragment "CLI: Command is not allowed.",
        [Event.beforeHook name args, Event.canUseHook name args]) := by
    simp only [indexPostT, if_neg hne, hp, hb, hc]
  rw [e1]
  exact ⟨rfl, rfl⟩

/-- C2, witness: a concrete denied command on a stub store. -/
theorem c2_denied_never_invokes_witness :
    parseCmd "get x" = .ok ["get", "x"] ∧
    (indexPostT demoConn demoTable denyHooks (some "get x")).1 =
      .errorFragment "CLI: Command is not allowed." ∧
    storeCallCount (indexPostT demoConn demoTable denyHooks (some "get x")).2 = 0 :=
  ⟨by decide,
    (c2_denied_never_invokes demoConn demoTable denyHooks "get x" "get" ["x"]
      (by decide) rfl rfl).1,
    (c2_denied_never_invokes demoConn demoTable denyHooks "get x" "get" ["x"]
      (by decide) rfl rfl).2⟩

/-- C3.  The remap loop copies the canonical entry to the alias key, and
fails with the construction-time error carrying the canonical name when
that entry is absent at that point; with the default remap table, a
store connection lacking a `delete` member makes the whole construction
fail before any table is produced. -/
theorem c3_remap_copy_or_fail (a c : String) (rs : List (String × String))
    (tbl : CommandTable) :
    (∀ e : Entry, dictGet? tbl c = some e →
        applyRemaps ((a, c) :: rs) tbl = applyRemaps rs (dictInsert tbl a e) ∧
        dictGet? (dictInsert tbl a e) a = some e) ∧
    (dictGet? tbl c = none → applyRemaps ((a, c) :: rs) tbl = .error (.keyError c)) ∧
    (∀ conn : StoreConn, dictGet? (inspectCommands conn) "delete" = none →
        buildCommands conn = .error (.keyError "delete")) := by
  refine ⟨?_, ?_, ?_⟩
  · intro e he
    exact ⟨by simp only [applyRemaps, he], dictGet?_insert_self tbl a e⟩
  · intro he
    simp only [applyRemaps, he]
  · intro conn hd
    simp only [buildCommands, remappedCommands, applyRemaps, hd]

/-- C3, witness: remapping over a table with no canonical entry fails
with the canonical name as the error payload. -/
theorem c3_remap_copy_or_fail_witness :
    dictGet? ([] : CommandTable) "delete" = none ∧
    applyRemaps [("del", "delete")] ([] : CommandTable) = .error (.keyError "delete") :=
  ⟨rfl, (c3_remap_copy_or_fail "del" "delete" [] []).2.1 rfl⟩

/-- C4.  Whatever the store connection exposes, construction registers
the built-in help handler under `help` with the fixed help text after
reflective enumeration, overwriting any discovered member of that
name. -/
theorem c4_builtin_help_entry (conn : StoreConn) (tbl : CommandTable)
    (h : buildCommands conn = .ok tbl) :
    dictGet? tbl "help" = some (Handler.builtinHelp, "Help!") := by
  obtain ⟨t, _, rfl⟩ := buildCommands_ok conn tbl h
  unfold contributeCommands
  exact dictGet?_insert_self t "help" _

/-- C4, witness: the demo connection has a reflectively discovered
member named `help`, and the built table still binds `help` to the
built-in handler. -/
theorem c4_builtin_help_entry_witness :
    buildCommands demoConn = .ok demoTable ∧
    dictGet? demoTable "help" = some (Handler.builtinHelp, "Help!") :=
  ⟨by decide, c4_builtin_help_entry demoConn demoTable (by decide)⟩

/-- C5.  The zero-argument help result is the fixed usage line followed
by the comma-separated sorted key list; the sorted key list is sorted
under Python string comparison and, for a table with unique keys,
contains every table key exactly once and nothing else. -/
theorem c5_help_listing (tbl : CommandTable) (hnd : (dictKeys tbl).Nodup) :
    cmdHelp tbl [] = .ok (.textWrapper
      ("Usage: help <command>.\nList of supported commands: " ++
        String.intercalate ", " (sortedKeys tbl))) ∧
    List.Sorted pyLe (sortedKeys tbl) ∧
    (∀ k, k ∈ dictKeys tbl → (sortedKeys tbl).count k = 1) ∧
    (∀ k, k ∈ sortedKeys tbl → k ∈ dictKeys tbl) := by
  refine ⟨rfl, ?_, ?_, ?_⟩
  · unfold sortedKeys
    exact List.sorted_insertionSort pyLe (dictKeys tbl)
  · intro k hk
    have hperm : List.Perm (sortedKeys tbl) (dictKeys tbl) :=
      List.perm_insertionSort pyLe (dictKeys tbl)
    rw [hperm.count_eq]
    exact List.count_eq_one_of_mem hnd hk
  · intro k hk
    exact (List.perm_insertionSort pyLe (dictKeys tbl)).mem_iff.mp hk

/-- C5, witness at the demo table. -/
theorem c5_help_listing_witness :
    (dictKeys demoTable).Nodup ∧ (sortedKeys demoTable).count "help" = 1 :=
  ⟨by decide, (c5_help_listing demoTable (by decide)).2.2.1 "help" (by decide)⟩

/-- C6.  Help with one argument returns the named command's captured
help string when non-empty, the fixed fallback text when the captured
string is empty, and raises the unknown-command error when the name is
not a key of the table. -/
theorem c6_help_named_command (tbl : CommandTable) (cmd : String) :
    (dictGet? tbl cmd = none →
        cmdHelp tbl [cmd] = .error (.keyError "Invalid command.")) ∧
    (∀ h : Handler, dictGet? tbl cmd = some (h, "") →
        cmdHelp tbl [cmd] = .ok (.textWrapper "Command does not have any help.")) ∧
    (∀ (h : Handler) (d : String), dictGet? tbl cmd = some (h, d) → d ≠ "" →
        cmdHelp tbl [cmd] = .ok (.textWrapper d)) := by
  refine ⟨?_, ?_, ?_⟩
  · intro he
    simp only [cmdHelp, he]
  · intro h he
    simp [cmdHelp, he]
  · intro h d he hd
    simp [cmdHelp, he, hd]

/-- C6, witness: the three branches at the demo table. -/
theorem c6_help_named_command_witness :
    dictGet? demoTable "nosuch" = none ∧
    cmdHelp demoTable ["nosuch"] = .error (.keyError "Invalid command.") :=
  ⟨by decide, (c6_help_named_command demoTable "nosuch").1 (by decide)⟩

/-- C7.  The executor substitutes the canonical name for a remap alias
before the table lookup and invokes the resolved store operation with
the remaining tokens as positional raw strings; a resolved name absent
from the table raises the unknown-command error. -/
theorem c7_alias_execution (conn : StoreConn) (tbl : CommandTable) (d : String)
    (args : List String)
    (hd : dictGet? tbl "delete" = some (Handler.store "delete", d)) :
    executeCommandT conn tbl remappedCommands "del" args =
      (conn.call "delete" args, [Event.storeCall "delete" args]) ∧
    (∀ name : String, dictGet? tbl (resolveName remappedCommands name) = none →
        executeCommandT conn tbl remappedCommands name args =
          (.error (.keyError "Invalid command."), [])) := by
  constructor
  · have hres : resolveName remappedCommands "del" = "delete" := rfl
    unfold executeCommandT
    rw [hres, hd]
    rfl
  · intro name hn
    unfold executeCommandT
    rw [hn]

/-- C7, witness: `del key1` on the demo table invokes the canonical
delete operation with the single raw argument. -/
theorem c7_alias_execution_witness :
    dictGet? demoTable "delete" = some (Handler.store "delete", "Delete keys.") ∧
    executeCommandT demoConn demoTable remappedCommands "del" ["key1"] =
      (demoConn.call "delete" ["key1"], [Event.storeCall "delete" ["key1"]]) :=
  ⟨by decide,
    (c7_alias_execution demoConn demoTable "Delete keys." ["key1"] (by decide)).1⟩

/-- C8.  The POST handler is total and every failure path renders an
error fragment whose message is the `CLI: ` marker followed by Python's
rendering of the exception; a stub operation raising with message
`boom` yields exactly the fragment `CLI: boom`. -/
theorem c8_error_boundary :
    (∀ (conn : StoreConn) (tbl : CommandTable) (hooks : Hooks) (cmdField : Option String),
      (∃ v : Value, (indexPostT conn tbl hooks cmdField).1 =
          .resultFragment v (Value.typeName v)) ∨
      (∃ m : String, (indexPostT conn tbl hooks cmdField).1 =
          .errorFragment ("CLI: " ++ m))) ∧
    (indexPostT boomConn demoTable defaultHooks (some "get k")).1 =
      .errorFragment "CLI: boom" := by
  constructor
  · intro conn tbl hooks cmdField
    cases cmdField with
    | none => exact Or.inr ⟨"Empty command.", rfl⟩
    | some cmd =>
      by_cases hne : cmd = ""
      · refine Or.inr ⟨"Empty command.", ?_⟩
        simp only [indexPostT, if_pos hne]
        rfl
      · cases hp : parseCmd cmd with
        | error e =>
          exact Or.inr ⟨e.pyStr, by simp only [indexPostT, if_neg hne, hp]⟩
        | ok toks =>
          cases toks with
          | nil =>
            refine Or.inr ⟨"Failed to parse command.", ?_⟩
            simp only [indexPostT, if_neg hne, hp]
            rfl
          | cons name args =>
            cases hb : hooks.beforeExec name args with
            | error e =>
              exact Or.inr ⟨e.pyStr, by simp only [indexPostT, if_neg hne, hp, hb]⟩
            | ok u =>
              cases hcu : hooks.canUse name args with
              | error e =>
                exact Or.inr ⟨e.pyStr, by simp only [indexPostT, if_neg hne, hp, hb, hcu]⟩
              | ok b =>
                cases b with
                | false =>
                  refine Or.inr ⟨"Command is not allowed.", ?_⟩
                  simp only [indexPostT, if_neg hne, hp, hb, hcu]
                  rfl
                | true =>
                  cases hex : executeCommandT conn tbl remappedCommands name args with
                  | mk r evs =>
                    cases r with
                    | error e =>
                      exact Or.inr ⟨e.pyStr,
                        by simp only [indexPostT, if_neg hne, hp, hb, hcu, hex]⟩
                    | ok v =>
                      cases ha : hooks.afterExec name args v with
                      | error e =>
                        exact Or.inr ⟨e.pyStr,
                          by simp only [indexPostT, if_neg hne, hp, hb, hcu, hex, ha]⟩
                      | ok u2 =>
                        exact Or.inl ⟨v,
                          by simp only [indexPostT, if_neg hne, hp, hb, hcu, hex, ha]⟩
  · decide

/-- C9.  The tokenizer follows the POSIX shell quoting rules on the two
specified inputs: embedded spaces survive inside double quotes, and an
unterminated quote raises the lexer's parse error. -/
theorem c9_tokenizer :
    parseCmd "set key \"value with spaces\"" = .ok ["set", "key", "value with spaces"] ∧
    parseCmd "set key \"oops" = .error (.valueError "No closing quotation") :=
  ⟨by decide, by decide⟩

/-- C10.  For a command line whose first token is `name`, the
pre-execution hook and the permission check are invoked with `name` and
the remaining raw tokens before any remap substitution or table lookup:
the trace starts with the two hook events carrying the raw token, and
when the resolved name is unknown the hooks have still run and only the
unknown-command error is rendered afterwards. -/
theorem c10_hooks_before_resolution (conn : StoreConn) (tbl : CommandTable) (hooks : Hooks)
    (cmd name : String) (args : List String)
    (hp : parseCmd cmd = .ok (name :: args))
    (hb : hooks.beforeExec name args = .ok ()) :
    (∃ rest, (indexPostT conn tbl hooks (some cmd)).2 =
        Event.beforeHook name args :: Event.canUseHook name args :: rest) ∧
    (hooks.canUse name args = .ok true →
      dictGet? tbl (resolveName remappedCommands name) = none →
        (indexPostT conn tbl hooks (some cmd)).1 =
          .errorFragment ("CLI: " ++ Exc.pyStr (Exc.keyError "Invalid command.")) ∧
        (indexPostT conn tbl hooks (some cmd)).2 =
          [Event.beforeHook name args, Event.canUseHook name args]) := by
  have hne : cmd ≠ "" := by
    intro he
    rw [he] at hp
    have h0 : (Except.ok ([] : List String) : Except Exc (List String)) =
        .ok (name :: args) := hp
    injection h0 with h1
    exact List.cons_ne_nil name args h1.symm
  constructor
  · cases hcu : hooks.canUse name args with
    | error e =>
      exact ⟨[], by simp only [indexPostT, if_neg hne, hp, hb, hcu]⟩
    | ok b =>
      cases b with
      | false => exact ⟨[], by simp only [indexPostT, if_neg hne, hp, hb, hcu]⟩
      | true =>
        cases hex : executeCommandT conn tbl remappedCommands name args with
        | mk r evs =>
          cases r with
          | error e =>
            exact ⟨evs, by simp only [indexPostT, if_neg hne, hp, hb, hcu, hex]⟩
          | ok v =>
            cases ha : hooks.afterExec name args v with
            | error e =>
              exact ⟨evs ++ [Event.afterHook name args],
                by simp only [indexPostT, if_neg hne, hp, hb, hcu, hex, ha]⟩
            | ok u =>
              exact ⟨evs ++ [Event.afterHook name args],
                by simp only [indexPostT, if_neg hne, hp, hb, hcu, hex, ha]⟩
  · intro hcu hn
    have hexec : executeCommandT conn tbl remappedCommands name args =
        (.error (.keyError "Invalid command."), []) := by
      unfold executeCommandT
      rw [hn]
    constructor <;> simp only [indexPostT, if_neg hne, hp, hb, hcu, hexec]

/-- C10, witness: an unknown command still reaches both hooks with the
raw token, and a remapped command shows the hooks receiving the alias
while the store call receives the canonical name. -/
theorem c10_hooks_before_resolution_witness :
    parseCmd "bogus arg" = .ok ["bogus", "arg"] ∧
    (indexPostT demoConn demoTable defaultHooks (some "bogus arg")).2 =
      [Event.beforeHook "bogus" ["arg"], Event.canUseHook "bogus" ["arg"]] ∧
    (indexPostT demoConn demoTable defaultHooks (some "del x")).2 =
      [Event.beforeHook "del" ["x"], Event.canUseHook "del" ["x"],
        Event.storeCall "delete" ["x"], Event.afterHook "del" ["x"]] :=
  ⟨by decide,
    ((c10_hooks_before_resolution demoConn demoTable defaultHooks "bogus arg" "bogus" ["arg"]
      (by decide) rfl).2 rfl (by decide)).2,
    by decide⟩

end RedisCLI
